/-
Verification of the KarEnhanceDevocalized DSP backend.

Shallow embedding of the numeric core of `src/backend` (analyzer.py,
processor.py, models.py).  Machine floating point is embedded as exact
arithmetic over a linear ordered field (ℚ where the code is purely
rational, ℝ where it uses sqrt / tanh / real powers, ℂ for the spectral
transform).  External library calls (librosa STFT/ISTFT, scipy
interp1d / median_filter, numpy geomspace / rfftfreq) are modelled from
the spec where noted; everything else is translated directly from the
Python source.
-/
import Mathlib

open scoped Classical

namespace KED

/-! ## Generic numeric helpers (numpy semantics) -/

/-- `np.clip(x, lo, hi)`: `min (max x lo) hi`. -/
def npClip {F : Type*} [LinearOrder F] (x lo hi : F) : F := min (max x lo) hi

/-- Median of three values (the value of `scipy.ndimage.median_filter` at a
single position once its 3-wide window has been gathered). -/
def med3 {F : Type*} [LinearOrder F] (a b c : F) : F :=
  max (min a b) (min (max a b) c)

/-! ## `models.py`: request validation (pydantic `Field` constraints) -/

/-- The `pattern=r"^(vocal|mix)$"` constraint on `ProcessRequest.mode`
(`models.py` line 19). -/
def ModeOk (m : String) : Prop := m = "vocal" ∨ m = "mix"

/-- The `pattern=r"^(none|peak|loudness)$"` constraint on
`ProcessRequest.normalization` (`models.py` line 24). -/
def NormalizationOk (n : String) : Prop := n = "none" ∨ n = "peak" ∨ n = "loudness"

/-- Validation of `AnalysisRequest` (`models.py` lines 12-14):
`sensitivity ∈ [1,10]`, `band_count ∈ [6,32]`. -/
def AnalysisRequestValid (sensitivity band_count : ℤ) : Prop :=
  1 ≤ sensitivity ∧ sensitivity ≤ 10 ∧ 6 ≤ band_count ∧ band_count ≤ 32

/-- Validation of `ProcessRequest` (`models.py` lines 17-24): the same
bounds for every mode — there is no mode-dependent band-count bound. -/
def ProcessRequestValid (mode : String) (eq_level band_count sensitivity : ℤ)
    (normalization : String) : Prop :=
  ModeOk mode ∧ 0 ≤ eq_level ∧ eq_level ≤ 10 ∧ 6 ≤ band_count ∧ band_count ≤ 32 ∧
    1 ≤ sensitivity ∧ sensitivity ≤ 10 ∧ NormalizationOk normalization

instance (m : String) : Decidable (ModeOk m) := by unfold ModeOk; infer_instance

instance (n : String) : Decidable (NormalizationOk n) := by
  unfold NormalizationOk; infer_instance

instance (s b : ℤ) : Decidable (AnalysisRequestValid s b) := by
  unfold AnalysisRequestValid; infer_instance

instance (m : String) (e b s : ℤ) (n : String) :
    Decidable (ProcessRequestValid m e b s n) := by
  unfold ProcessRequestValid; infer_instance

/-! ## `processor.py`: gain matrix (`_compute_gain_matrix`, lines 72-118) -/

/-- The frequency-dependent scale ladder of vocal mode
(`processor.py` lines 108-114): `1.2` for `200 ≤ c ≤ 4000`, else `1.0`
for `100 ≤ c ≤ 6000`, else `0.7`.  Float literals `1.2`/`0.7` are the
exact decimals `6/5`/`7/10` in the real embedding. -/
def freq_scale {F : Type*} [LinearOrderedField F] (c : F) : F :=
  if 200 ≤ c ∧ c ≤ 4000 then 6/5
  else if 100 ≤ c ∧ c ≤ 6000 then 1
  else 7/10

/-- `_compute_gain_matrix` (`processor.py` lines 72-118).  `centers` is the
list of `BandDefinition.center_hz` values of `band_defs` (the only field
the function reads).  Rows of `gain` beyond `len(band_defs)` keep the
`np.ones_like` initialisation. -/
def compute_gain_matrix {F : Type*} [LinearOrderedField F] {nb nf : ℕ}
    (intensity : Fin nb → Fin nf → F) (eq_level : ℕ) (centers : List F)
    (mode : String) : Fin nb → Fin nf → F :=
  if eq_level = 0 then fun _ _ => 1
  else if mode = "mix" then
    fun b t => 1 + ((eq_level : F) / 10) * (intensity b t - 1)
  else
    fun b t =>
      match centers.get? b.val with
      | some c => 1 + ((eq_level : F) * (1/4)) * freq_scale c * intensity b t
      | none => 1

/-- The spec's wording of the vocal-mode scale function `s(f)`
(spec §4.5): `1.2` if `200 ≤ f ≤ 4000`, `0.7` if `f < 100` or `f > 6000`,
else `1.0`.  Stated for comparison with `freq_scale` above. -/
def spec_freq_scale {F : Type*} [LinearOrderedField F] (f : F) : F :=
  if 200 ≤ f ∧ f ≤ 4000 then 6/5
  else if f < 100 ∨ 6000 < f then 7/10
  else 1

/-! ## `processor.py`: intensity interpolation
(`_interpolate_intensity_to_stft_frames`, lines 35-65) -/

/-- Modelled from the spec: `scipy.interpolate.interp1d` with
`kind='linear'`, `bounds_error=False`, `fill_value=fill` (spec §4.4:
per band, linear interpolation with out-of-range fill).  Outside
`[ta 0, ta (nf-1)]` the result is `fill`; inside, the value is linear
between the two neighbouring nodes. -/
def interp1d_lin {F : Type*} [LinearOrderedField F] {nf : ℕ}
    (ta ys : Fin nf → F) (fill t : F) : F :=
  if hnf : 0 < nf then
    if hout : t < ta ⟨0, hnf⟩ ∨ ta ⟨nf - 1, Nat.sub_lt hnf one_pos⟩ < t then fill
    else
      let j := (Finset.univ.filter fun j => ta j ≤ t).max'
        ⟨⟨0, hnf⟩, Finset.mem_filter.mpr
          ⟨Finset.mem_univ _, not_lt.mp fun h => hout (Or.inl h)⟩⟩
      if hj : j.val + 1 < nf then
        ys j + (ys ⟨j.val + 1, hj⟩ - ys j) * (t - ta j) / (ta ⟨j.val + 1, hj⟩ - ta j)
      else ys j
  else fill

/-- `_interpolate_intensity_to_stft_frames` (`processor.py` lines 35-65):
per-band linear interpolation with mode fill (`1.0` for mix, `0.0`
otherwise), then `np.clip(·, 1.0, None)` for mix or `np.clip(·, 0.0, 1.0)`
for vocal. -/
def interpolate_intensity {F : Type*} [LinearOrderedField F] {nb nf nt : ℕ}
    (intensity : Fin nb → Fin nf → F) (ta : Fin nf → F) (tp : Fin nt → F)
    (mode : String) : Fin nb → Fin nt → F :=
  fun b i =>
    let fill : F := if mode = "mix" then 1 else 0
    let v := interp1d_lin ta (intensity b) fill (tp i)
    if mode = "mix" then max v 1 else npClip v 0 1

/-! ## `processor.py`: stereo-widen weight (lines 289-307) -/

/-- `np.max(bin_gain, axis=0)` over the `(K+1, T+1)` bin-gain matrix
(`processor.py` line 292); bin and frame counts are written in successor
form because the numpy arrays are nonempty (`n_bins = 1025`,
`n_frames ≥ 1`). -/
def max_gain_per_frame {F : Type*} [LinearOrder F] {K T : ℕ}
    (bin_gain : Fin (K + 1) → Fin (T + 1) → F) (t : Fin (T + 1)) : F :=
  Finset.univ.sup' Finset.univ_nonempty fun i => bin_gain i t

/-- The widen curve of `processor.py` lines 292-295:
`np.clip((m - 1) / (m.max() - 1 + 1e-8), 0, 1)` where
`m = np.max(bin_gain, axis=0)`.  The constant in the denominator is the
source's `1e-8`. -/
def widen_intensity {F : Type*} [LinearOrderedField F] {K T : ℕ}
    (bin_gain : Fin (K + 1) → Fin (T + 1) → F) (t : Fin (T + 1)) : F :=
  npClip ((max_gain_per_frame bin_gain t - 1) /
    ((Finset.univ.sup' Finset.univ_nonempty fun f => max_gain_per_frame bin_gain f)
      - 1 + 1/100000000)) 0 1

/-- The widen curve exactly as the claim states it, with `EPS = 1e-10`
(spec §4.7): `clip((m[f] - 1) / (max(m) - 1 + 1e-10), 0, 1)`.  Stated
for comparison with `widen_intensity` above. -/
def spec_widen_intensity {F : Type*} [LinearOrderedField F] {K T : ℕ}
    (bin_gain : Fin (K + 1) → Fin (T + 1) → F) (t : Fin (T + 1)) : F :=
  npClip ((max_gain_per_frame bin_gain t - 1) /
    ((Finset.univ.sup' Finset.univ_nonempty fun f => max_gain_per_frame bin_gain f)
      - 1 + 1/10000000000)) 0 1

/-! ## `analyzer.py`: band planner (lines 22-47) -/

/-- `compute_band_edges` (`analyzer.py` lines 22-31):
`np.geomspace(60, min(16000, sr/2), n_bands+1)`, whose `i`-th point is
`60 * (f_max/60) ^ (i / n_bands)`. -/
noncomputable def compute_band_edges (n_bands : ℕ) (sr : ℝ) : ℕ → ℝ :=
  fun i => 60 * (min 16000 (sr / 2) / 60) ^ ((i : ℝ) / (n_bands : ℝ))

/-- `np.fft.rfftfreq(n_fft, 1/sr)[i] = i * sr / n_fft`
(`analyzer.py` line 41). -/
noncomputable def rfft_freq (n_fft : ℕ) (sr : ℝ) (i : ℕ) : ℝ :=
  (i : ℝ) * sr / (n_fft : ℝ)

/-- `map_bins_to_bands` (`analyzer.py` lines 34-47): band `b` holds the
bin indices `i < n_fft/2 + 1` with
`band_edges b ≤ freq i < band_edges (b+1)`. -/
noncomputable def map_bins_to_bands (n_fft : ℕ) (sr : ℝ) (band_edges : ℕ → ℝ)
    (b : ℕ) : Finset ℕ :=
  (Finset.range (n_fft / 2 + 1)).filter fun i =>
    band_edges b ≤ rfft_freq n_fft sr i ∧ rfft_freq n_fft sr i < band_edges (b + 1)

/-! ## `analyzer.py`: mix analyzer ratio pipeline (lines 224-255) -/

/-- Per-band per-frame RMS across the bins of a band
(`analyzer.py` lines 234-235): `sqrt(mean(mag[bins, t]^2))`. -/
noncomputable def band_rms {K T : ℕ} (mag : Fin K → Fin T → ℝ)
    (bins : Finset (Fin K)) (t : Fin T) : ℝ :=
  Real.sqrt ((∑ i ∈ bins, mag i t ^ 2) / (bins.card : ℝ))

/-- The raw gain-ratio matrix of `analyze_mix_reference`
(`analyzer.py` lines 225-243) before median filtering: bands with empty
bin groups keep the `np.ones` initialisation; otherwise
`np.clip(mix_rms / (inst_rms + 1e-10), 1.0, 10.0)`. -/
noncomputable def gain_ratio_raw {K T nb : ℕ} (mag_mix mag_inst : Fin K → Fin T → ℝ)
    (bin_groups : Fin nb → Finset (Fin K)) (b : Fin nb) (t : Fin T) : ℝ :=
  if bin_groups b = ∅ then 1
  else npClip (band_rms mag_mix (bin_groups b) t /
    (band_rms mag_inst (bin_groups b) t + 1/10000000000)) 1 10

/-- Reflect-boundary left neighbour used by `scipy.ndimage.median_filter`
(index `-1` reflects to `0`). -/
def reflect_prev {T : ℕ} (t : Fin T) : Fin T :=
  if 0 < t.val then ⟨t.val - 1, lt_of_le_of_lt (Nat.sub_le _ _) t.isLt⟩ else t

/-- Reflect-boundary right neighbour used by `scipy.ndimage.median_filter`
(index `T` reflects to `T-1`). -/
def reflect_next {T : ℕ} (t : Fin T) : Fin T :=
  if h : t.val + 1 < T then ⟨t.val + 1, h⟩ else t

/-- Modelled from the spec: `scipy.ndimage.median_filter(·, size=3)` with
its default reflect boundary (spec §4.3 step 5, temporal median filter of
width 3 per band). -/
def median_filter3 {F : Type*} [LinearOrder F] {T : ℕ} (v : Fin T → F)
    (t : Fin T) : F :=
  med3 (v (reflect_prev t)) (v t) (v (reflect_next t))

/-- The full ratio pipeline of `analyze_mix_reference`
(`analyzer.py` lines 224-255): raw clipped ratios, then the width-3
median filter per band. -/
noncomputable def analyze_mix_ratios {K T nb : ℕ}
    (mag_mix mag_inst : Fin K → Fin T → ℝ)
    (bin_groups : Fin nb → Finset (Fin K)) (b : Fin nb) : Fin T → ℝ :=
  median_filter3 (gain_ratio_raw mag_mix mag_inst bin_groups b)

/-! ## `processor.py`: soft clip guard (lines 314-324) -/

/-- The per-sample clip guard of `process_audio`
(`processor.py` lines 316-323), with `ceiling = 0.98`:
samples with `|x| ≤ 0.98` pass unchanged, larger ones are replaced by
`sign(x) * (c + (1-c) * tanh((|x| - c)/(1-c)))`. -/
noncomputable def clip_guard (x : ℝ) : ℝ :=
  if 98/100 < |x| then
    Real.sign x * (98/100 + (1 - 98/100) * Real.tanh ((|x| - 98/100) / (1 - 98/100)))
  else x

/-! ## Spectral transform model

Modelled from the spec: `librosa.stft` / `librosa.istft` (spec Glossary,
"STFT / ISTFT": windowed frames, hop `HOP`, overlap-add inverse).  The
transform is kept parametric in the frame length, hop, window and the
DFT root `ω`, because the concrete root `exp(-2πi/2048)` is
transcendental; the theorems assume exactly that `ω` is a primitive
`nfft`-th root of unity, which the complex root satisfies. -/

/-- Discrete Fourier transform over a field with root `ω`:
`(dft ω v) k = ∑ n, ω^(k n) * v n`. -/
def dft {F : Type*} [Field F] (N : ℕ) (ω : F) (v : Fin N → F) : Fin N → F :=
  fun k => ∑ n, ω ^ (k.val * n.val) * v n

/-- Inverse discrete Fourier transform:
`(idft ω v) n = (∑ k, ω⁻¹^(n k) * v k) / N`. -/
def idft {F : Type*} [Field F] (N : ℕ) (ω : F) (v : Fin N → F) : Fin N → F :=
  fun n => (∑ k, ω⁻¹ ^ (n.val * k.val) * v k) / (N : F)

/-- The window extended by zero outside `[0, N)`. -/
def wz {F : Type*} [Field F] (N : ℕ) (w : Fin N → F) (j : ℤ) : F :=
  if h : 0 ≤ j ∧ j < (N : ℤ) then w ⟨j.toNat, by omega⟩ else 0

/-- One centered, windowed analysis frame: position `n` of frame `k`
holds `w n * x (k*hop - nfft/2 + n)` (librosa `center=True` framing). -/
def frame_slice {F : Type*} [Field F] (nfft hop : ℕ) (w : Fin nfft → F)
    (x : ℤ → F) (k : ℕ) : Fin nfft → F :=
  fun n => w n * x ((k : ℤ) * (hop : ℤ) - ((nfft / 2 : ℕ) : ℤ) + (n.val : ℤ))

/-- Frame `k` of the STFT: the DFT of the windowed slice. -/
def stft_frame {F : Type*} [Field F] (nfft hop : ℕ) (ω : F) (w : Fin nfft → F)
    (x : ℤ → F) (k : ℕ) : Fin nfft → F :=
  dft nfft ω (frame_slice nfft hop w x k)

/-- Windowed overlap-add contribution of one inverse frame `y` at
in-frame offset `j` (zero outside `[0, nfft)`). -/
def ola_term {F : Type*} [Field F] (nfft : ℕ) (w : Fin nfft → F)
    (y : Fin nfft → F) (j : ℤ) : F :=
  if h : 0 ≤ j ∧ j < (nfft : ℤ) then w ⟨j.toNat, by omega⟩ * y ⟨j.toNat, by omega⟩ else 0

/-- The squared-window overlap-add envelope (librosa's
`window_sumsquare`) at output sample `m`. -/
def win_sumsq {F : Type*} [Field F] (nfft hop nFrames : ℕ) (w : Fin nfft → F)
    (m : ℤ) : F :=
  ∑ k ∈ Finset.range nFrames,
    wz nfft w (m - (k : ℤ) * (hop : ℤ) + ((nfft / 2 : ℕ) : ℤ)) ^ 2

/-- Inverse STFT at output sample `m`: per-frame inverse DFT, windowed
overlap-add, divided by the squared-window envelope. -/
def istft_at {F : Type*} [Field F] (nfft hop nFrames : ℕ) (ω : F)
    (w : Fin nfft → F) (S : ℕ → Fin nfft → F) (m : ℤ) : F :=
  (∑ k ∈ Finset.range nFrames,
    ola_term nfft w (idft nfft ω (S k)) (m - (k : ℤ) * (hop : ℤ) + ((nfft / 2 : ℕ) : ℤ))) /
    win_sumsq nfft hop nFrames w m

/-! ## `processor.py`: bin-gain expansion and per-channel processing
(lines 240-270) -/

/-- Expansion of the per-band gain matrix to per-bin gains
(`processor.py` lines 241-246): `bin_gain` starts as `np.ones`; the
loop over `enumerate(bin_groups)` assigns each band's row to its bins,
later bands overwriting earlier ones. -/
def bin_gain_expand {F : Type*} [One F] {T : ℕ} (groups : List (Finset ℕ))
    (gain : ℕ → Fin T → F) : ℕ → Fin T → F :=
  fun i t => groups.enum.foldl (fun acc p => if i ∈ p.2 then gain p.1 t else acc) 1

/-- The frame-count adaptation of `process_channel`
(`processor.py` lines 256-263): STFT frames beyond the precomputed
`T` columns use gain `1.0` (right padding); earlier frames use the
precomputed column (truncation reads only those). -/
def bg_frame {F : Type*} [One F] {T : ℕ} (bg : ℕ → Fin T → F) : ℕ → ℕ → F :=
  fun i k => if h : k < T then bg i ⟨k, h⟩ else 1

/-- The conjugate-symmetry bridge between the half-spectrum (rfft) bin
index of the code, `i ≤ nfft/2`, and a full-spectrum index: bin `n`
above the Nyquist mirrors to `nfft - n`.  Multiplying rfft bin `i` by a
real gain is the same as multiplying full-spectrum bins `i` and
`nfft - i` by it. -/
def mirror_bin (nfft : ℕ) (n : Fin nfft) : ℕ :=
  if n.val ≤ nfft / 2 then n.val else nfft - n.val

/-- `process_channel` (`processor.py` lines 253-270): STFT, per-bin
multiply by the (frame-adapted) bin gain, inverse STFT at sample `m`.
The real signal is embedded into ℂ; the code's rfft-domain multiply is
carried to the full spectrum through `mirror_bin`. -/
noncomputable def process_channel (nfft hop nFrames : ℕ) (ω : ℂ) (w : Fin nfft → ℂ)
    (bg : ℕ → ℕ → ℝ) (x : ℤ → ℝ) (m : ℤ) : ℂ :=
  istft_at nfft hop nFrames ω w
    (fun k n => (bg (mirror_bin nfft n) k : ℂ) *
      stft_frame nfft hop ω w (fun t => (x t : ℂ)) k n) m

/-! ## `processor.py`: assembled mono pipeline (`process_audio`,
lines 179-327, mono path, `normalization="none"`) -/

/-- `n_stft_frames = max(1, 1 + (total_samples - PROC_N_FFT) // PROC_HOP)`
(`processor.py` lines 215-217); with truncated ℕ subtraction the clamp
is built in. -/
def n_stft_frames (len nfft hop : ℕ) : ℕ := 1 + (len - nfft) / hop

/-- Modelled from the spec: the number of frames `librosa.stft` produces
for a length-`len` signal with `center=True` is `1 + len // hop`. -/
def librosa_n_frames (len hop : ℕ) : ℕ := 1 + len / hop

/-- The mono path of `process_audio` (`processor.py` lines 179-327) with
`normalization="none"` (`apply_normalization` is the identity there,
lines 146-147) at output sample `m`: band planning at the target sample
rate, intensity interpolation onto the STFT frame grid
`t_p i = i * hop / sr`, gain matrix, bin-gain expansion, per-channel
spectral processing, then the per-sample clip guard.  The stereo path
applies the identical `process_channel` to each channel.  Samples
outside `[0, len)` are not part of the output. -/
noncomputable def process_audio_mono (nfft hop : ℕ) (ω : ℂ) (w : Fin nfft → ℂ)
    {nb nf : ℕ} (x : ℤ → ℝ) (len : ℕ) (sr : ℝ)
    (intensity : Fin nb → Fin nf → ℝ) (ta : Fin nf → ℝ) (centers : List ℝ)
    (eq_level : ℕ) (mode : String) (m : ℤ) : ℝ :=
  let band_edges := compute_band_edges nb sr
  let groups := (List.range nb).map fun b => map_bins_to_bands nfft sr band_edges b
  let T := n_stft_frames len nfft hop
  let tp : Fin T → ℝ := fun i => (i.val : ℝ) * (hop : ℝ) / sr
  let interp := interpolate_intensity intensity ta tp mode
  let gain := compute_gain_matrix interp eq_level centers mode
  let bin_gain := bin_gain_expand groups
    (fun b t => if h : b < nb then gain ⟨b, h⟩ t else 1)
  let out := process_channel nfft hop (librosa_n_frames len hop) ω w
    (bg_frame bin_gain) x m
  if 0 ≤ m ∧ m < (len : ℤ) then clip_guard out.re else 0

/-! # Theorems -/

/-! ## Helper lemmas -/

theorem freq_scale_eq_spec {F : Type*} [LinearOrderedField F] (c : F) :
    freq_scale c = spec_freq_scale c := by
  unfold freq_scale spec_freq_scale
  by_cases h1 : 200 ≤ c ∧ c ≤ 4000
  · rw [if_pos h1, if_pos h1]
  · rw [if_neg h1, if_neg h1]
    by_cases h2 : 100 ≤ c ∧ c ≤ 6000
    · rw [if_pos h2, if_neg]
      push_neg
      exact ⟨h2.1, h2.2⟩
    · rw [if_neg h2, if_pos]
      rcases not_and_or.mp h2 with h | h
      · exact Or.inl (not_le.mp h)
      · exact Or.inr (not_le.mp h)

theorem freq_scale_bounds {F : Type*} [LinearOrderedField F] (c : F) :
    7/10 ≤ freq_scale c ∧ freq_scale c ≤ 6/5 := by
  unfold freq_scale
  split_ifs <;> norm_num

/-! ## C2: gain non-attenuation -/

/-- C2.  For both modes, any `eq_level ≤ 10` and any analysis matrix in its
mode's valid range, every entry of `_compute_gain_matrix`'s result is
`≥ 1.0`. -/
theorem gain_nonattenuation {F : Type*} [LinearOrderedField F] {nb nf : ℕ}
    (intensity : Fin nb → Fin nf → F) (eq_level : ℕ) (centers : List F)
    (mode : String) (hmode : ModeOk mode) (heq : eq_level ≤ 10)
    (hvoc : mode = "vocal" → ∀ b t, 0 ≤ intensity b t ∧ intensity b t ≤ 1)
    (hmix : mode = "mix" → ∀ b t, 1 ≤ intensity b t ∧ intensity b t ≤ 10)
    (b : Fin nb) (t : Fin nf) :
    1 ≤ compute_gain_matrix intensity eq_level centers mode b t := by
  unfold compute_gain_matrix
  by_cases h0 : eq_level = 0
  · rw [if_pos h0]
  · rw [if_neg h0]
    rcases hmode with hv | hm
    · have hne : ¬mode = "mix" := by rw [hv]; decide
      rw [if_neg hne]
      rcases hc : centers.get? b.val with _ | c
      · simp only [hc]; exact le_refl 1
      · simp only [hc]
        have hI := hvoc hv b t
        have he : (0 : F) ≤ (eq_level : F) := Nat.cast_nonneg _
        have hfs := freq_scale_bounds c
        have hfs0 : (0 : F) ≤ freq_scale c := le_trans (by norm_num) hfs.1
        have hprod : 0 ≤ (eq_level : F) * (1/4) * freq_scale c * intensity b t :=
          mul_nonneg (mul_nonneg (mul_nonneg he (by norm_num)) hfs0) hI.1
        linarith
    · rw [hm, if_pos rfl]
      have hI := hmix hm b t
      have he : (0 : F) ≤ (eq_level : F) := Nat.cast_nonneg _
      have hprod : 0 ≤ (eq_level : F) / 10 * (intensity b t - 1) :=
        mul_nonneg (by positivity) (by linarith [hI.1])
      linarith

/-- Witness for C2 at a concrete matrix. -/
theorem gain_nonattenuation_witness :
    1 ≤ compute_gain_matrix (fun (_ : Fin 1) (_ : Fin 1) => (1/2 : ℚ)) 7 [300] "vocal" 0 0 :=
  gain_nonattenuation _ 7 [300] "vocal" (Or.inl rfl) (by norm_num)
    (fun _ _ _ => by norm_num) (fun h => by simp at h) 0 0

/-! ## C8: vocal-mode gain formula -/

/-- C8.  The vocal-mode branch of `_compute_gain_matrix` computes
`1 + (eq_level * 0.25) * s(center_b) * I[b,t]` with `s` exactly the
spec's piecewise scale, and the code's if/elif/else ladder equals that
piecewise function everywhere. -/
theorem vocal_gain_formula {F : Type*} [LinearOrderedField F] {nb nf : ℕ}
    (intensity : Fin nb → Fin nf → F) (eq_level : ℕ) (centers : List F)
    (h1 : 1 ≤ eq_level) (b : Fin nb) (c : F) (hc : centers.get? b.val = some c)
    (t : Fin nf) :
    (∀ f : F, freq_scale f = spec_freq_scale f) ∧
    compute_gain_matrix intensity eq_level centers "vocal" b t
      = 1 + ((eq_level : F) * (1/4)) * spec_freq_scale c * intensity b t := by
  refine ⟨freq_scale_eq_spec, ?_⟩
  unfold compute_gain_matrix
  rw [if_neg (by omega), if_neg (by decide)]
  simp only [hc]
  rw [freq_scale_eq_spec]

/-- Witness for C8 at a concrete center and matrix. -/
theorem vocal_gain_formula_witness :
    compute_gain_matrix (fun (_ : Fin 1) (_ : Fin 1) => (1/2 : ℚ)) 8 [1000] "vocal" 0 0
      = 1 + ((8 : ℚ) * (1/4)) * spec_freq_scale 1000 * (1/2) :=
  (vocal_gain_formula (fun _ _ => (1/2 : ℚ)) 8 [1000] (by norm_num) 0 1000 (by rfl) 0).2

/-! ## C10: vocal-mode gain upper bound -/

/-- C10.  In vocal mode with `eq_level ≤ 10` and interpolated intensities
in `[0,1]`, every gain entry is at most `4.0 = 1 + 10·0.25·1.2·1`. -/
theorem vocal_gain_upper_bound {F : Type*} [LinearOrderedField F] {nb nf : ℕ}
    (intensity : Fin nb → Fin nf → F) (eq_level : ℕ) (centers : List F)
    (heq : eq_level ≤ 10)
    (hI : ∀ b t, 0 ≤ intensity b t ∧ intensity b t ≤ 1)
    (b : Fin nb) (t : Fin nf) :
    compute_gain_matrix intensity eq_level centers "vocal" b t ≤ 4 := by
  unfold compute_gain_matrix
  by_cases h0 : eq_level = 0
  · rw [if_pos h0]; norm_num
  · rw [if_neg h0, if_neg (by decide)]
    rcases hc : centers.get? b.val with _ | c
    · simp only [hc]; norm_num
    · simp only [hc]
      have hIbt := hI b t
      have he : (0 : F) ≤ (eq_level : F) := Nat.cast_nonneg _
      have he10 : (eq_level : F) ≤ 10 := by exact_mod_cast heq
      have hfs := freq_scale_bounds c
      have hfs0 : (0 : F) ≤ freq_scale c := le_trans (by norm_num) hfs.1
      have hA : (eq_level : F) * (1/4) * freq_scale c ≤ 3 := by
        nlinarith [mul_nonneg (sub_nonneg.mpr he10) hfs0,
          mul_nonneg he (sub_nonneg.mpr hfs.2)]
      have hA0 : 0 ≤ (eq_level : F) * (1/4) * freq_scale c :=
        mul_nonneg (mul_nonneg he (by norm_num)) hfs0
      have hB : (eq_level : F) * (1/4) * freq_scale c * intensity b t
          ≤ (eq_level : F) * (1/4) * freq_scale c * 1 :=
        mul_le_mul_of_nonneg_left hIbt.2 hA0
      linarith

/-- Witness for C10 at a concrete matrix. -/
theorem vocal_gain_upper_bound_witness :
    compute_gain_matrix (fun (_ : Fin 1) (_ : Fin 1) => (1 : ℚ)) 10 [1000] "vocal" 0 0 ≤ 4 :=
  vocal_gain_upper_bound _ 10 [1000] (by norm_num) (fun _ _ => by norm_num) 0 0

/-! ## C9: band-count validation -/

/-- Counterexample to C9 as stated: a vocal-mode request with
`band_count = 30 > 24` passes both request models' validation. -/
theorem band_count_vocal_not_capped :
    ProcessRequestValid "vocal" 7 30 9 "none" ∧ AnalysisRequestValid 9 30 ∧
      ¬((30 : ℤ) ≤ 24) := by
  refine ⟨⟨Or.inl rfl, ?_⟩, ?_, ?_⟩ <;> decide

/-- C9 amended: both request models bound `band_count` by `[6, 32]`
for every mode; vocal mode carries no stricter cap of 24 (32 is
accepted, 5 and 33 are rejected). -/
theorem band_count_validated_range :
    (∀ (mode : String) (e bc s : ℤ) (nm : String),
      ProcessRequestValid mode e bc s nm → 6 ≤ bc ∧ bc ≤ 32) ∧
    (∀ s bc : ℤ, AnalysisRequestValid s bc → 6 ≤ bc ∧ bc ≤ 32) ∧
    ProcessRequestValid "vocal" 7 32 9 "none" ∧
    ¬ProcessRequestValid "vocal" 7 5 9 "none" ∧
    ¬ProcessRequestValid "vocal" 7 33 9 "none" := by
  refine ⟨fun mode e bc s nm h => ⟨h.2.2.2.1, h.2.2.2.2.1⟩,
    fun s bc h => ⟨h.2.2.1, h.2.2.2⟩, ?_, ?_, ?_⟩ <;> decide

/-- Witness for the amended C9 at a concrete request. -/
theorem band_count_validated_range_witness : 6 ≤ (24 : ℤ) ∧ (24 : ℤ) ≤ 32 :=
  band_count_validated_range.1 "mix" 7 24 9 "none" (by decide)

/-! ## C4: stereo-widen weight -/

/-- Counterexample to C4 as stated: at the constant bin-gain matrix `2`
(one bin, one frame), the code's widen weight (denominator constant
`1e-8`) differs from the claim's formula with `EPS = 1e-10`. -/
theorem widen_weight_eps_counterexample :
    widen_intensity (fun (_ : Fin 1) (_ : Fin 1) => (2 : ℚ)) 0 ≠
      spec_widen_intensity (fun (_ : Fin 1) (_ : Fin 1) => (2 : ℚ)) 0 := by
  simp only [widen_intensity, spec_widen_intensity, max_gain_per_frame, npClip,
    Finset.univ_unique, Finset.sup'_singleton]
  norm_num [min_def, max_def]

/-- C4 amended: the widening weight is
`clip((m[f] - 1) / (max(m) - 1 + 1e-8), 0, 1)` — the structure the claim
gives, but with the source's `1e-8` in place of `1e-10`; `m[f]` is the
maximum of the bin-gain matrix over bins at frame `f`. -/
theorem widen_weight_formula {K T : ℕ}
    (bin_gain : Fin (K + 1) → Fin (T + 1) → ℚ) (t : Fin (T + 1)) :
    (∀ i, bin_gain i t ≤ max_gain_per_frame bin_gain t) ∧
    (∃ i, max_gain_per_frame bin_gain t = bin_gain i t) ∧
    widen_intensity bin_gain t =
      npClip ((max_gain_per_frame bin_gain t - 1) /
        ((Finset.univ.sup' Finset.univ_nonempty fun f => max_gain_per_frame bin_gain f)
          - 1 + 1/100000000)) 0 1 := by
  refine ⟨fun i => ?_, ?_, rfl⟩
  · show bin_gain i t ≤ Finset.univ.sup' Finset.univ_nonempty fun i => bin_gain i t
    exact Finset.le_sup' (fun i => bin_gain i t) (Finset.mem_univ i)
  · obtain ⟨i, _, hi⟩ := Finset.exists_mem_eq_sup' Finset.univ_nonempty
      fun i => bin_gain i t
    exact ⟨i, hi⟩

/-! ## C5: interpolation exactness -/

theorem interp1d_lin_node {F : Type*} [LinearOrderedField F] {nf : ℕ}
    (ta ys : Fin nf → F) (fill : F) (hmono : StrictMono ta) (j : Fin nf) :
    interp1d_lin ta ys fill (ta j) = ys j := by
  have hnf : 0 < nf := j.pos
  unfold interp1d_lin
  rw [dif_pos hnf]
  have h0 : ta ⟨0, hnf⟩ ≤ ta j := hmono.monotone (Fin.mk_le_of_le_val (Nat.zero_le _))
  have hlast : ta j ≤ ta ⟨nf - 1, Nat.sub_lt hnf one_pos⟩ :=
    hmono.monotone (Fin.le_def.mpr (by simpa using Nat.le_pred_of_lt j.isLt))
  rw [dif_neg (not_or.mpr ⟨not_lt.mpr h0, not_lt.mpr hlast⟩)]
  have hmax : ∀ hne : (Finset.univ.filter fun k => ta k ≤ ta j).Nonempty,
      (Finset.univ.filter fun k => ta k ≤ ta j).max' hne = j := by
    intro hne
    apply le_antisymm
    · apply Finset.max'_le
      intro y hy
      have hyle : ta y ≤ ta j := (Finset.mem_filter.mp hy).2
      by_contra hlt
      exact absurd hyle (not_le.mpr (hmono (not_le.mp hlt)))
    · apply Finset.le_max'
      exact Finset.mem_filter.mpr ⟨Finset.mem_univ j, le_refl (ta j)⟩
  simp only [hmax]
  by_cases hj : j.val + 1 < nf
  · rw [dif_pos hj, sub_self, mul_zero, zero_div, add_zero]
  · rw [dif_neg hj]

theorem interp1d_lin_out_of_range {F : Type*} [LinearOrderedField F] {nf : ℕ}
    (ta ys : Fin nf → F) (fill t : F) (h0 : 0 < nf)
    (hout : t < ta ⟨0, h0⟩ ∨ ta ⟨nf - 1, Nat.sub_lt h0 one_pos⟩ < t) :
    interp1d_lin ta ys fill t = fill := by
  unfold interp1d_lin
  rw [dif_pos h0, dif_pos hout]

/-- C5.  With strictly increasing analysis frame times and a source
matrix within its mode's valid range: wherever a processing frame time
coincides with an analysis frame time the returned matrix equals the
source entry, and wherever it falls outside the analysis time range the
pre-clip interpolant equals the mode fill (1.0 for mix, 0.0 for vocal). -/
theorem interpolation_exactness {F : Type*} [LinearOrderedField F] {nb nf nt : ℕ}
    (M : Fin nb → Fin nf → F) (ta : Fin nf → F) (tp : Fin nt → F) (mode : String)
    (hmono : StrictMono ta) (hmode : ModeOk mode)
    (hvoc : mode = "vocal" → ∀ b j, 0 ≤ M b j ∧ M b j ≤ 1)
    (hmix : mode = "mix" → ∀ b j, 1 ≤ M b j ∧ M b j ≤ 10) :
    (∀ b i j, tp i = ta j → interpolate_intensity M ta tp mode b i = M b j) ∧
    (∀ b i (h0 : 0 < nf),
      (tp i < ta ⟨0, h0⟩ ∨ ta ⟨nf - 1, Nat.sub_lt h0 one_pos⟩ < tp i) →
      interp1d_lin ta (M b) (if mode = "mix" then 1 else 0) (tp i)
        = if mode = "mix" then (1 : F) else 0) := by
  constructor
  · intro b i j hnode
    simp only [interpolate_intensity]
    rw [hnode, interp1d_lin_node ta (M b) _ hmono j]
    rcases hmode with hv | hm
    · have hne : ¬mode = "mix" := by rw [hv]; decide
      rw [if_neg hne]
      unfold npClip
      rw [max_eq_left (hvoc hv b j).1, min_eq_left (hvoc hv b j).2]
    · rw [hm, if_pos rfl, max_eq_left (hmix hm b j).1]
  · intro b i h0 hout
    exact interp1d_lin_out_of_range ta (M b) _ _ h0 hout

/-- Witness for C5 at concrete frame grids (`t_a = (0, 1)`, `t_p = (1)`,
a node of `t_a`). -/
theorem interpolation_exactness_witness :
    interpolate_intensity (fun (_ : Fin 1) (_ : Fin 2) => (1/2 : ℚ))
      (fun j => (j.val : ℚ)) (fun (_ : Fin 1) => 1) "vocal" 0 0 = 1/2 :=
  (interpolation_exactness (fun _ _ => (1/2 : ℚ)) (fun j => (j.val : ℚ))
    (fun _ => 1) "vocal" (fun a b h => Nat.cast_lt.mpr h) (Or.inl rfl)
    (fun _ _ _ => by norm_num) (fun h => absurd h (by decide))).1 0 0 1 (by norm_num)

/-! ## C6: soft clip guard -/

theorem tanh_lt_one (y : ℝ) : Real.tanh y < 1 := by
  rw [Real.tanh_eq_sinh_div_cosh, div_lt_one (Real.cosh_pos y)]
  have h := Real.cosh_sub_sinh y
  have := Real.exp_pos (-y)
  linarith

theorem neg_one_lt_tanh (y : ℝ) : -1 < Real.tanh y := by
  rw [Real.tanh_eq_sinh_div_cosh, lt_div_iff (Real.cosh_pos y)]
  have h := Real.cosh_add_sinh y
  have := Real.exp_pos y
  linarith

theorem clip_guard_of_le {x : ℝ} (h : |x| ≤ 98/100) : clip_guard x = x := by
  unfold clip_guard
  rw [if_neg (not_lt.mpr h)]

theorem clip_guard_abs_le (x : ℝ) : |clip_guard x| ≤ 1 := by
  by_cases h : 98/100 < |x|
  · unfold clip_guard
    rw [if_pos h]
    have hx0 : x ≠ 0 := by
      intro h0
      rw [h0, abs_zero] at h
      norm_num at h
    have ht1 := tanh_lt_one ((|x| - 98/100) / (1 - 98/100))
    have ht2 := neg_one_lt_tanh ((|x| - 98/100) / (1 - 98/100))
    have hv : |98/100 + (1 - 98/100) * Real.tanh ((|x| - 98/100) / (1 - 98/100))| ≤ 1 := by
      rw [abs_le]
      constructor <;> nlinarith
    rcases lt_or_gt_of_ne hx0 with hneg | hpos
    · rw [Real.sign_of_neg hneg, abs_mul, abs_neg, abs_one, one_mul]
      exact hv
    · rw [Real.sign_of_pos hpos, abs_mul, abs_one, one_mul]
      exact hv
  · rw [clip_guard, if_neg h]
    push_neg at h
    linarith

/-- C6.  The soft clip guard leaves samples with `|x| ≤ 0.98` unchanged,
maps samples with `|x| > 0.98` to
`sign(x) * (0.98 + 0.02 * tanh((|x| - 0.98) / 0.02))`, and bounds every
output sample by `|·| ≤ 1`. -/
theorem soft_clip_guard (x : ℝ) :
    (|x| ≤ 98/100 → clip_guard x = x) ∧
    (98/100 < |x| → clip_guard x
      = Real.sign x * (98/100 + (1/50) * Real.tanh ((|x| - 98/100) / (1/50)))) ∧
    |clip_guard x| ≤ 1 := by
  refine ⟨fun h => clip_guard_of_le h, fun h => ?_, clip_guard_abs_le x⟩
  unfold clip_guard
  rw [if_pos h]
  norm_num

/-- Witness for C6 at concrete samples on both sides of the ceiling. -/
theorem soft_clip_guard_witness :
    clip_guard (1/2) = 1/2 ∧ |clip_guard (3/2)| ≤ 1 :=
  ⟨(soft_clip_guard (1/2)).1 (by rw [abs_of_nonneg] <;> norm_num),
   (soft_clip_guard (3/2)).2.2⟩

/-! ## C7: mix self-identity -/

theorem med3_self {F : Type*} [LinearOrder F] (a : F) : med3 a a a = a := by
  simp [med3]

theorem gain_ratio_raw_self_eq_one {K T nb : ℕ} (mag : Fin K → Fin T → ℝ)
    (bin_groups : Fin nb → Finset (Fin K)) (b : Fin nb) (t : Fin T) :
    gain_ratio_raw mag mag bin_groups b t = 1 := by
  unfold gain_ratio_raw
  by_cases h : bin_groups b = ∅
  · rw [if_pos h]
  · rw [if_neg h]
    have hr : 0 ≤ band_rms mag (bin_groups b) t := Real.sqrt_nonneg _
    have hden : (0 : ℝ) < band_rms mag (bin_groups b) t + 1/10000000000 := by linarith
    have hle : band_rms mag (bin_groups b) t /
        (band_rms mag (bin_groups b) t + 1/10000000000) ≤ 1 := by
      rw [div_le_one hden]
      linarith
    unfold npClip
    rw [max_eq_right hle, min_eq_left (by norm_num : (1:ℝ) ≤ 10)]

/-- C7.  If the decoded reference mix equals the decoded instrumental,
every entry of the mix analyzer's ratio matrix is `1.0` (the per-band
ratio `rms/(rms + EPS)` clips up to `1.0` and the median filter
preserves it), and for any `eq_level` the mix-mode gain matrix computed
from it is all `1.0`.  `magOf` is the composition decode → STFT →
magnitudes applied to each signal. -/
theorem mix_self_identity {K T nb : ℕ}
    (magOf : (ℤ → ℝ) → Fin K → Fin T → ℝ) (mix inst : ℤ → ℝ)
    (bin_groups : Fin nb → Finset (Fin K)) (h : mix = inst)
    (eq_level : ℕ) (centers : List ℝ) :
    (∀ b t, analyze_mix_ratios (magOf mix) (magOf inst) bin_groups b t = 1) ∧
    (∀ b t, compute_gain_matrix
      (fun b t => analyze_mix_ratios (magOf mix) (magOf inst) bin_groups b t)
      eq_level centers "mix" b t = 1) := by
  subst h
  have hone : ∀ b t, analyze_mix_ratios (magOf mix) (magOf mix) bin_groups b t = 1 := by
    intro b t
    unfold analyze_mix_ratios median_filter3
    rw [gain_ratio_raw_self_eq_one, gain_ratio_raw_self_eq_one,
      gain_ratio_raw_self_eq_one, med3_self]
  refine ⟨hone, fun b t => ?_⟩
  unfold compute_gain_matrix
  by_cases h0 : eq_level = 0
  · rw [if_pos h0]
  · rw [if_neg h0, if_pos rfl]
    simp only []
    rw [hone b t]
    ring

/-- Witness for C7 at a concrete signal pair and magnitude map. -/
theorem mix_self_identity_witness :
    analyze_mix_ratios
      (((fun _ => fun _ _ => (1 : ℝ)) (fun _ : ℤ => (0 : ℝ))) : Fin 1 → Fin 1 → ℝ)
      (((fun _ => fun _ _ => (1 : ℝ)) (fun _ : ℤ => (0 : ℝ))) : Fin 1 → Fin 1 → ℝ)
      (fun _ : Fin 1 => (∅ : Finset (Fin 1))) 0 0 = 1 :=
  (mix_self_identity (fun _ => fun _ _ => (1 : ℝ)) (fun _ => 0) (fun _ => 0)
    (fun _ => ∅) rfl 5 []).1 0 0

/-! ## C3: band partition -/

theorem compute_band_edges_zero (n : ℕ) (sr : ℝ) :
    compute_band_edges n sr 0 = 60 := by
  unfold compute_band_edges
  rw [Nat.cast_zero, zero_div, Real.rpow_zero, mul_one]

theorem compute_band_edges_last (n : ℕ) (sr : ℝ) (hn : 1 ≤ n) :
    compute_band_edges n sr n = min 16000 (sr / 2) := by
  unfold compute_band_edges
  have hn0 : (n : ℝ) ≠ 0 := Nat.cast_ne_zero.mpr (by omega)
  rw [div_self hn0, Real.rpow_one, mul_comm, div_mul_cancel₀]
  norm_num

theorem compute_band_edges_lt (n : ℕ) (sr : ℝ) (hn : 1 ≤ n)
    (hf : 60 < min 16000 (sr / 2)) :
    ∀ i j : ℕ, i < j → compute_band_edges n sr i < compute_band_edges n sr j := by
  intro i j hij
  unfold compute_band_edges
  have hr : 1 < min 16000 (sr / 2) / 60 := by
    rw [lt_div_iff₀ (by norm_num : (0:ℝ) < 60)]
    linarith
  apply mul_lt_mul_of_pos_left _ (by norm_num : (0:ℝ) < 60)
  rw [Real.rpow_lt_rpow_left_iff hr]
  have hn0 : (0 : ℝ) < (n : ℝ) := by
    have : 0 < n := by omega
    exact_mod_cast this
  exact (div_lt_div_iff_of_pos_right hn0).mpr (by exact_mod_cast hij)

theorem compute_band_edges_le (n : ℕ) (sr : ℝ) (hn : 1 ≤ n)
    (hf : 60 < min 16000 (sr / 2)) :
    ∀ i j : ℕ, i ≤ j → compute_band_edges n sr i ≤ compute_band_edges n sr j := by
  intro i j hij
  rcases eq_or_lt_of_le hij with h | h
  · rw [h]
  · exact le_of_lt (compute_band_edges_lt n sr hn hf i j h)

theorem mem_map_bins_to_bands {n_fft : ℕ} {sr : ℝ} {band_edges : ℕ → ℝ}
    {b i : ℕ} :
    i ∈ map_bins_to_bands n_fft sr band_edges b ↔
      i < n_fft / 2 + 1 ∧ band_edges b ≤ rfft_freq n_fft sr i ∧
        rfft_freq n_fft sr i < band_edges (b + 1) := by
  unfold map_bins_to_bands
  simp [Finset.mem_filter, Finset.mem_range, and_assoc]

/-- C3.  For `n ≥ 1` bands and a sample rate with `min(16000, sr/2) > 60`:
the `n+1` edges are strictly increasing and span `[60, min(16000, sr/2)]`;
the bin groups are pairwise disjoint; and every FFT bin with frequency in
`[60, min(16000, sr/2))` belongs to exactly one band. -/
theorem band_partition (n n_fft : ℕ) (sr : ℝ) (hn : 1 ≤ n)
    (hf : 60 < min 16000 (sr / 2)) :
    (∀ i j : ℕ, i < j → j ≤ n →
      compute_band_edges n sr i < compute_band_edges n sr j) ∧
    compute_band_edges n sr 0 = 60 ∧
    compute_band_edges n sr n = min 16000 (sr / 2) ∧
    (∀ b b' i : ℕ, b < n → b' < n →
      i ∈ map_bins_to_bands n_fft sr (compute_band_edges n sr) b →
      i ∈ map_bins_to_bands n_fft sr (compute_band_edges n sr) b' → b = b') ∧
    (∀ i : ℕ, i < n_fft / 2 + 1 → 60 ≤ rfft_freq n_fft sr i →
      rfft_freq n_fft sr i < min 16000 (sr / 2) →
      ∃! b : ℕ, b < n ∧ i ∈ map_bins_to_bands n_fft sr (compute_band_edges n sr) b) := by
  have hdisj : ∀ b b' i : ℕ, b < n → b' < n →
      i ∈ map_bins_to_bands n_fft sr (compute_band_edges n sr) b →
      i ∈ map_bins_to_bands n_fft sr (compute_band_edges n sr) b' → b = b' := by
    intro b b' i hb hb' hmem hmem'
    obtain ⟨-, h1, h2⟩ := mem_map_bins_to_bands.mp hmem
    obtain ⟨-, h1', h2'⟩ := mem_map_bins_to_bands.mp hmem'
    by_contra hne
    rcases lt_or_gt_of_ne hne with h | h
    · have : compute_band_edges n sr (b + 1) ≤ compute_band_edges n sr b' :=
        compute_band_edges_le n sr hn hf _ _ (by omega)
      linarith
    · have : compute_band_edges n sr (b' + 1) ≤ compute_band_edges n sr b :=
        compute_band_edges_le n sr hn hf _ _ (by omega)
      linarith
  refine ⟨fun i j hij _ => compute_band_edges_lt n sr hn hf i j hij,
    compute_band_edges_zero n sr, compute_band_edges_last n sr hn, hdisj, ?_⟩
  intro i hi h60 hlt
  set P : ℕ → Prop := fun b => compute_band_edges n sr b ≤ rfft_freq n_fft sr i with hP
  have hP0 : P 0 := by rw [hP]; simp only [compute_band_edges_zero]; exact h60
  set b0 := Nat.findGreatest P n with hb0
  have hPb0 : P b0 := Nat.findGreatest_spec (Nat.zero_le n) hP0
  have hb0n : b0 ≤ n := Nat.findGreatest_le n
  have hb0lt : b0 < n := by
    rcases eq_or_lt_of_le hb0n with h | h
    · exfalso
      have hcb : compute_band_edges n sr b0 ≤ rfft_freq n_fft sr i := hPb0
      rw [h, compute_band_edges_last n sr hn] at hcb
      linarith
    · exact h
  have hnot : ¬P (b0 + 1) :=
    Nat.findGreatest_is_greatest (Nat.lt_succ_self b0) (by omega)
  have hmem : i ∈ map_bins_to_bands n_fft sr (compute_band_edges n sr) b0 :=
    mem_map_bins_to_bands.mpr ⟨hi, hPb0, not_le.mp hnot⟩
  refine ⟨b0, ⟨hb0lt, hmem⟩, ?_⟩
  rintro y ⟨hy, hymem⟩
  exact hdisj y b0 i hy hb0lt hymem hmem

/-- Witness for C3 at `n = 2`, `sr = 1000`. -/
theorem band_partition_witness :
    compute_band_edges 2 1000 0 < compute_band_edges 2 1000 1 :=
  (band_partition 2 8 1000 (by norm_num) (by norm_num [min_def])).1 0 1
    (by norm_num) (by norm_num)

/-! ## C1: DFT inversion and STFT round trip -/

theorem geom_sum_of_unit_root {F : Type*} [Field F] {N : ℕ} {z : F}
    (hzN : z ^ N = 1) (hz : z ≠ 1) :
    ∑ k ∈ Finset.range N, z ^ k = 0 := by
  have h := geom_sum_mul z N
  rw [hzN, sub_self] at h
  rcases mul_eq_zero.mp h with h' | h'
  · exact h'
  · exact absurd (sub_eq_zero.mp h') hz

theorem unit_root_ne_zero {F : Type*} [Field F] {N : ℕ} {ω : F}
    (hNpos : 0 < N) (hω : ω ^ N = 1) : ω ≠ 0 := by
  intro h
  rw [h, zero_pow (by omega : N ≠ 0)] at hω
  exact one_ne_zero hω.symm

theorem prim_root_pow_injective {F : Type*} [Field F] {N : ℕ} {ω : F}
    (hω : ω ^ N = 1) (hprim : ∀ d : ℕ, 0 < d → d < N → ω ^ d ≠ 1)
    {a b : ℕ} (ha : a < N) (hb : b < N) (hab : ω ^ a = ω ^ b) : a = b := by
  have hNpos : 0 < N := by omega
  have hω0 : ω ≠ 0 := unit_root_ne_zero hNpos hω
  have key : ∀ c d : ℕ, c < d → d < N → ω ^ c = ω ^ d → False := by
    intro c d hcd hdN hcdeq
    have hsplit : ω ^ d = ω ^ c * ω ^ (d - c) := by
      rw [← pow_add]
      congr 1
      omega
    rw [hsplit] at hcdeq
    have h1 : ω ^ (d - c) = 1 := by
      have := mul_left_cancel₀ (pow_ne_zero c hω0)
        (by rw [mul_one]; exact hcdeq : ω ^ c * 1 = ω ^ c * ω ^ (d - c))
      exact this.symm
    exact hprim (d - c) (by omega) (by omega) h1
  rcases Nat.lt_trichotomy a b with h | h | h
  · exact absurd hab (fun he => key a b h hb he)
  · exact h
  · exact absurd hab.symm (fun he => key b a h ha he)

theorem dft_inner_sum {F : Type*} [Field F] {N : ℕ} {ω : F}
    (hω : ω ^ N = 1) (hprim : ∀ d : ℕ, 0 < d → d < N → ω ^ d ≠ 1)
    (m n : Fin N) :
    (∑ k : Fin N, (ω⁻¹ ^ n.val * ω ^ m.val) ^ k.val)
      = if m = n then (N : F) else 0 := by
  have hNpos : 0 < N := n.pos
  have hω0 : ω ≠ 0 := unit_root_ne_zero hNpos hω
  by_cases hmn : m = n
  · subst hmn
    have h1 : ω⁻¹ ^ m.val * ω ^ m.val = 1 := by
      rw [← mul_pow, inv_mul_cancel₀ hω0, one_pow]
    rw [if_pos rfl, h1]
    simp
  · rw [if_neg hmn]
    set z := ω⁻¹ ^ n.val * ω ^ m.val with hzdef
    have hzN : z ^ N = 1 := by
      rw [hzdef, mul_pow, ← pow_mul, ← pow_mul, Nat.mul_comm n.val N,
        Nat.mul_comm m.val N, pow_mul, pow_mul, inv_pow, hω, inv_one,
        one_pow, one_pow, one_mul]
    have hz1 : z ≠ 1 := by
      intro hz
      rw [hzdef, inv_pow] at hz
      have h2 : ω ^ n.val = ω ^ m.val := by
        rw [inv_mul_eq_one₀ (pow_ne_zero _ hω0)] at hz
        exact hz
      exact hmn (Fin.ext (prim_root_pow_injective hω hprim m.isLt n.isLt h2.symm))
    rw [Fin.sum_univ_eq_sum_range (fun k => z ^ k) N]
    exact geom_sum_of_unit_root hzN hz1

theorem idft_dft {F : Type*} [Field F] {N : ℕ} (ω : F)
    (hω : ω ^ N = 1) (hprim : ∀ d : ℕ, 0 < d → d < N → ω ^ d ≠ 1)
    (hN : (N : F) ≠ 0) (v : Fin N → F) :
    idft N ω (dft N ω v) = v := by
  funext n
  unfold idft dft
  have step1 : (∑ k : Fin N, ω⁻¹ ^ (n.val * k.val) * ∑ m : Fin N, ω ^ (k.val * m.val) * v m)
      = ∑ m : Fin N, (∑ k : Fin N, (ω⁻¹ ^ n.val * ω ^ m.val) ^ k.val) * v m := by
    calc ∑ k : Fin N, ω⁻¹ ^ (n.val * k.val) * ∑ m : Fin N, ω ^ (k.val * m.val) * v m
        = ∑ k : Fin N, ∑ m : Fin N, ω⁻¹ ^ (n.val * k.val) * (ω ^ (k.val * m.val) * v m) := by
          simp only [Finset.mul_sum]
      _ = ∑ m : Fin N, ∑ k : Fin N, ω⁻¹ ^ (n.val * k.val) * (ω ^ (k.val * m.val) * v m) :=
          Finset.sum_comm
      _ = ∑ m : Fin N, (∑ k : Fin N, (ω⁻¹ ^ n.val * ω ^ m.val) ^ k.val) * v m := by
          refine Finset.sum_congr rfl fun m _ => ?_
          rw [Finset.sum_mul]
          refine Finset.sum_congr rfl fun k _ => ?_
          rw [mul_pow, ← pow_mul, ← pow_mul, Nat.mul_comm k.val m.val, mul_assoc]
  rw [step1]
  have step2 : ∑ m : Fin N, (∑ k : Fin N, (ω⁻¹ ^ n.val * ω ^ m.val) ^ k.val) * v m
      = ∑ m : Fin N, (if m = n then (N : F) else 0) * v m :=
    Finset.sum_congr rfl fun m _ => by rw [dft_inner_sum hω hprim m n]
  rw [step2]
  simp only [ite_mul, zero_mul]
  rw [Finset.sum_ite_eq' Finset.univ n (fun m => (N : F) * v m), if_pos (Finset.mem_univ n)]
  exact mul_div_cancel_left₀ (v n) hN

/-- Perfect reconstruction of the modelled STFT/ISTFT pair (spec
Glossary): at any output sample where the squared-window envelope is
nonzero, the inverse transform of the forward transform returns the
input, in exact arithmetic. -/
theorem istft_stft (nfft hop nFrames : ℕ) {F : Type*} [Field F] (ω : F)
    (w : Fin nfft → F) (hω : ω ^ nfft = 1)
    (hprim : ∀ d : ℕ, 0 < d → d < nfft → ω ^ d ≠ 1) (hN : (nfft : F) ≠ 0)
    (x : ℤ → F) (m : ℤ) (henv : win_sumsq nfft hop nFrames w m ≠ 0) :
    istft_at nfft hop nFrames ω w (stft_frame nfft hop ω w x) m = x m := by
  unfold istft_at
  have hterm : ∀ k : ℕ,
      ola_term nfft w (idft nfft ω (stft_frame nfft hop ω w x k))
        (m - (k : ℤ) * (hop : ℤ) + ((nfft / 2 : ℕ) : ℤ))
      = wz nfft w (m - (k : ℤ) * (hop : ℤ) + ((nfft / 2 : ℕ) : ℤ)) ^ 2 * x m := by
    intro k
    rw [stft_frame, idft_dft ω hω hprim hN]
    unfold ola_term wz frame_slice
    by_cases h : 0 ≤ m - (k : ℤ) * (hop : ℤ) + ((nfft / 2 : ℕ) : ℤ) ∧
        m - (k : ℤ) * (hop : ℤ) + ((nfft / 2 : ℕ) : ℤ) < (nfft : ℤ)
    · rw [dif_pos h, dif_pos h]
      have harg : (k : ℤ) * (hop : ℤ) - ((nfft / 2 : ℕ) : ℤ) +
          (((m - (k : ℤ) * (hop : ℤ) + ((nfft / 2 : ℕ) : ℤ)).toNat : ℕ) : ℤ) = m := by
        rw [Int.toNat_of_nonneg h.1]
        ring
      rw [harg]
      ring
    · rw [dif_neg h, dif_neg h]
      ring
  have hsum : ∑ k ∈ Finset.range nFrames,
      ola_term nfft w (idft nfft ω (stft_frame nfft hop ω w x k))
        (m - (k : ℤ) * (hop : ℤ) + ((nfft / 2 : ℕ) : ℤ))
      = ∑ k ∈ Finset.range nFrames,
        wz nfft w (m - (k : ℤ) * (hop : ℤ) + ((nfft / 2 : ℕ) : ℤ)) ^ 2 * x m :=
    Finset.sum_congr rfl fun k _ => hterm k
  rw [hsum, ← Finset.sum_mul]
  unfold win_sumsq at henv ⊢
  exact mul_div_cancel_left₀ (x m) henv

theorem compute_gain_matrix_zero {F : Type*} [LinearOrderedField F] {nb nf : ℕ}
    (intensity : Fin nb → Fin nf → F) (centers : List F) (mode : String)
    (b : Fin nb) (t : Fin nf) :
    compute_gain_matrix intensity 0 centers mode b t = 1 := by
  unfold compute_gain_matrix
  rw [if_pos rfl]

theorem bin_gain_expand_ones {F : Type*} [One F] {T : ℕ}
    (groups : List (Finset ℕ)) (gain : ℕ → Fin T → F)
    (hg : ∀ b t, gain b t = 1) (i : ℕ) (t : Fin T) :
    bin_gain_expand groups gain i t = 1 := by
  unfold bin_gain_expand
  have haux : ∀ (l : List (ℕ × Finset ℕ)) (acc : F), acc = 1 →
      l.foldl (fun acc p => if i ∈ p.2 then gain p.1 t else acc) acc = 1 := by
    intro l
    induction l with
    | nil => intro acc h; exact h
    | cons p tl ih =>
      intro acc h
      simp only [List.foldl_cons]
      apply ih
      by_cases hm : i ∈ p.2
      · rw [if_pos hm, hg]
      · rw [if_neg hm]; exact h
  exact haux _ 1 rfl

theorem bg_frame_ones {F : Type*} [One F] {T : ℕ} (bg : ℕ → Fin T → F)
    (hbg : ∀ i t, bg i t = 1) (i k : ℕ) : bg_frame bg i k = 1 := by
  unfold bg_frame
  by_cases h : k < T
  · rw [dif_pos h, hbg]
  · rw [dif_neg h]

theorem process_channel_ones (nfft hop nFrames : ℕ) (ω : ℂ) (w : Fin nfft → ℂ)
    (bg : ℕ → ℕ → ℝ) (hbg : ∀ i k, bg i k = 1) (x : ℤ → ℝ)
    (hω : ω ^ nfft = 1) (hprim : ∀ d : ℕ, 0 < d → d < nfft → ω ^ d ≠ 1)
    (hN : (nfft : ℂ) ≠ 0) (m : ℤ)
    (henv : win_sumsq nfft hop nFrames w m ≠ 0) :
    process_channel nfft hop nFrames ω w bg x m = (x m : ℂ) := by
  unfold process_channel
  have hS : (fun k n => ((bg (mirror_bin nfft n) k : ℝ) : ℂ) *
      stft_frame nfft hop ω w (fun t => (x t : ℂ)) k n)
      = stft_frame nfft hop ω w (fun t => (x t : ℂ)) := by
    funext k n
    rw [hbg, Complex.ofReal_one, one_mul]
  rw [hS, istft_stft nfft hop nFrames ω w hω hprim hN _ m henv]

/-- With `eq_level = 0` the whole spectral chain is the identity before
the clip guard: the output sample is `clip_guard (x m)`. -/
theorem process_audio_mono_bypass (nfft hop : ℕ) (ω : ℂ) (w : Fin nfft → ℂ)
    {nb nf : ℕ} (x : ℤ → ℝ) (len : ℕ) (sr : ℝ)
    (intensity : Fin nb → Fin nf → ℝ) (ta : Fin nf → ℝ) (centers : List ℝ)
    (mode : String) (hω : ω ^ nfft = 1)
    (hprim : ∀ d : ℕ, 0 < d → d < nfft → ω ^ d ≠ 1) (hN : (nfft : ℂ) ≠ 0)
    (m : ℤ) (hm : 0 ≤ m ∧ m < (len : ℤ))
    (henv : win_sumsq nfft hop (librosa_n_frames len hop) w m ≠ 0) :
    process_audio_mono nfft hop ω w x len sr intensity ta centers 0 mode m
      = clip_guard (x m) := by
  unfold process_audio_mono
  simp only []
  rw [if_pos hm]
  rw [process_channel_ones nfft hop (librosa_n_frames len hop) ω w _
    (fun i k => bg_frame_ones _
      (fun i' t' => bin_gain_expand_ones _ _
        (fun b t => by
          by_cases hb : b < nb
          · rw [dif_pos hb, compute_gain_matrix_zero]
          · rw [dif_neg hb]) i' t') i k)
    x hω hprim hN m henv, Complex.ofReal_re]

theorem tanh_half_lt_half : Real.tanh (1/2) < 1/2 := by
  rw [Real.tanh_eq_sinh_div_cosh, div_lt_iff₀ (Real.cosh_pos _)]
  rw [Real.sinh_eq, Real.cosh_eq]
  have ha : 0 < Real.exp (1/2) := Real.exp_pos _
  have hb : 0 < Real.exp (-(1/2)) := Real.exp_pos _
  have hinv : Real.exp (-(1/2)) * Real.exp (1/2) = 1 := by
    rw [← Real.exp_add]
    norm_num
  have ha2 : Real.exp (1/2) * Real.exp (1/2) = Real.exp 1 := by
    rw [← Real.exp_add]
    norm_num
  have he3 : Real.exp 1 < 3 := lt_trans Real.exp_one_lt_d9 (by norm_num)
  nlinarith [ha, hb, hinv, ha2, he3]

/-- C1 amended.  With `eq_level = 0` the gain matrix is all `1.0` for any
matrix and mode, and every output sample whose input magnitude is at most
the `0.98` clip-guard ceiling equals the input bit-exact — the channel
still passes through STFT, bin-wise multiply by `1.0`, and ISTFT.
(The guard's envelope and primitive-root hypotheses instantiate the
external transform's perfect-reconstruction condition.) -/
theorem bypass_identity (nfft hop : ℕ) (ω : ℂ) (w : Fin nfft → ℂ)
    {nb nf : ℕ} (x : ℤ → ℝ) (len : ℕ) (sr : ℝ)
    (intensity : Fin nb → Fin nf → ℝ) (ta : Fin nf → ℝ) (centers : List ℝ)
    (mode : String) (hω : ω ^ nfft = 1)
    (hprim : ∀ d : ℕ, 0 < d → d < nfft → ω ^ d ≠ 1) (hN : (nfft : ℂ) ≠ 0)
    (henv : ∀ m : ℤ, 0 ≤ m → m < (len : ℤ) →
      win_sumsq nfft hop (librosa_n_frames len hop) w m ≠ 0)
    (hx : ∀ m : ℤ, 0 ≤ m → m < (len : ℤ) → |x m| ≤ 98/100) :
    (∀ (nb' nf' : ℕ) (I : Fin nb' → Fin nf' → ℝ) (b : Fin nb') (t : Fin nf'),
      compute_gain_matrix I 0 centers mode b t = 1) ∧
    (∀ m : ℤ, 0 ≤ m → m < (len : ℤ) →
      process_audio_mono nfft hop ω w x len sr intensity ta centers 0 mode m = x m) := by
  refine ⟨fun nb' nf' I b t => compute_gain_matrix_zero I centers mode b t,
    fun m h1 h2 => ?_⟩
  rw [process_audio_mono_bypass nfft hop ω w x len sr intensity ta centers mode
    hω hprim hN m ⟨h1, h2⟩ (henv m h1 h2)]
  exact clip_guard_of_le (hx m h1 h2)

/-- Witness for the amended C1 at a concrete two-point transform
(`nfft = 2`, `hop = 1`, `ω = -1`, rectangular window, one sample at
`1/2`). -/
theorem bypass_identity_witness :
    process_audio_mono 2 1 (-1 : ℂ) (fun _ => 1) (fun _ : ℤ => (1/2 : ℝ)) 1 1
      (fun (_ : Fin 1) (_ : Fin 1) => (0 : ℝ)) (fun _ => (0 : ℝ)) [100] 0 "vocal" 0
      = 1/2 :=
  (bypass_identity 2 1 (-1) (fun _ => 1) (fun _ => 1/2) 1 1
    (fun (_ : Fin 1) (_ : Fin 1) => 0) (fun _ => 0) [100] "vocal"
    (by norm_num)
    (by intro d h1 h2; interval_cases d; norm_num)
    (by norm_num)
    (by
      intro m h1 h2
      have hm0 : m = 0 := by omega
      subst hm0
      norm_num [win_sumsq, wz, librosa_n_frames, Finset.sum_range_succ]
      decide)
    (by
      intro m h1 h2
      rw [abs_of_nonneg]
      · norm_num
      · norm_num)).2 0 (le_refl 0) (by norm_num)

/-- Counterexample to C1 as stated: with `eq_level = 0` and an input
sample at `0.99 > 0.98`, the always-on soft clip guard changes the
sample, so the output is not bit-exact equal to the input. -/
theorem bypass_identity_counterexample :
    process_audio_mono 2 1 (-1 : ℂ) (fun _ => 1) (fun _ : ℤ => (99/100 : ℝ)) 1 1
      (fun (_ : Fin 1) (_ : Fin 1) => (0 : ℝ)) (fun _ => (0 : ℝ)) [100] 0 "vocal" 0
      ≠ 99/100 := by
  rw [process_audio_mono_bypass 2 1 (-1) (fun _ => 1) (fun _ : ℤ => (99/100 : ℝ))
    1 1 (fun (_ : Fin 1) (_ : Fin 1) => 0) (fun _ => 0) [100] "vocal"
    (by norm_num)
    (by intro d h1 h2; interval_cases d; norm_num)
    (by norm_num)
    0 ⟨le_refl 0, by norm_num⟩
    (by
      norm_num [win_sumsq, wz, librosa_n_frames, Finset.sum_range_succ]
      decide)]
  unfold clip_guard
  rw [abs_of_nonneg (by norm_num : (0:ℝ) ≤ 99/100)]
  rw [if_pos (by norm_num : (98:ℝ)/100 < 99/100)]
  rw [Real.sign_of_pos (by norm_num : (0:ℝ) < 99/100), one_mul]
  have harg : ((99:ℝ)/100 - 98/100) / (1 - 98/100) = 1/2 := by norm_num
  rw [harg]
  intro hcontra
  have := tanh_half_lt_half
  linarith

end KED
